import Mathlib

/-!
Verification of the NinjaTrader trade-history compiler (`src/app.py`).

The development shallowly embeds the ingestion/merge pipeline:
`detect_header_row`, `read_file`, `compile_files`.

Modelling conventions:
  * A spreadsheet/CSV cell is a `Cell`: `na` models pandas `NaN`, `str`
    a text cell, `num` a numeric cell, `time` a parsed timestamp
    (`pd.to_datetime` result), timestamps being identified with naturals.
  * A source file is a `SrcFile`: its basename, its extension, and
    `raw : Option (List (List Cell))` — the grid of cells the pandas
    readers produce for it, `none` when reading raises (corrupt file,
    unsupported encoding, empty file).  The same grid underlies both the
    `nrows=30` probe in `detect_header_row` and the full parse in
    `read_file`, which read the same file.
  * `pd.to_datetime` is an external library routine; it is modelled by an
    explicit parameter `parse : Cell → Option Nat` giving the timestamp of
    a non-`na` cell when it parses.  A whole-column conversion succeeds
    iff every non-`na` cell parses; `na` cells become `NaT` (kept as `na`),
    matching pandas, and sort after all timestamps.
  * A pandas `DataFrame` is a `Table`: named columns plus rectangular rows
    (`read_file` rectangularises rows to the header width, as pandas does).
  * `combined.sort_values` is modelled by a sort on rows keyed by the
    candidate column, ascending with `NaT` last; the claims checked here
    depend only on sortedness and permutation, not on tie order.
  * Python `str.strip` / `str.lower` / `str.isalnum` are modelled
    character-wise with `Char.isWhitespace` / `Char.toLower` /
    `Char.isAlphanum`.
  * The sort loop iterates columns positionally paired with their names
    (the source iterates names; the two coincide when names are distinct,
    which holds for every table considered here).
-/

/-- A cell of a tabular file: pandas `NaN`, a text cell, a numeric cell, or a
parsed timestamp (`pd.to_datetime` output). -/
inductive Cell where
  | na : Cell
  | str (s : String) : Cell
  | num (n : Int) : Cell
  | time (t : Nat) : Cell
deriving DecidableEq, Repr

/-- Python `pd.notna`. -/
def Cell.notna : Cell → Bool
  | Cell.na => false
  | _ => true

/-- Python `str(v)` on a cell value. -/
def cellToStr : Cell → String
  | Cell.na => "nan"
  | Cell.str s => s
  | Cell.num n => toString n
  | Cell.time t => toString t

/-- File extension classes distinguished by `app.py` (`os.path.splitext`,
lower-cased): `.csv`, `.xlsx`, `.xls`, anything else. -/
inductive FileExt where
  | csv : FileExt
  | xlsx : FileExt
  | xls : FileExt
  | other : FileExt
deriving DecidableEq, Repr

/-- A source file: basename, extension, and the grid of cells the pandas
readers obtain from it (`none` when reading raises). -/
structure SrcFile where
  name : String
  ext : FileExt
  raw : Option (List (List Cell))
deriving DecidableEq, Repr

/-- A pandas `DataFrame`: column names plus rows of cells. -/
structure Table where
  cols : List String
  rows : List (List Cell)
deriving DecidableEq, Repr

/-- Python `list.strip`-style trimming on a character list: drop leading
whitespace, then trailing whitespace. -/
def trimChars (l : List Char) : List Char :=
  ((((l.dropWhile Char.isWhitespace).reverse).dropWhile Char.isWhitespace)).reverse

/-- Python `str.strip`. -/
def trimStr (s : String) : String := String.mk (trimChars s.data)

/-- Python `str.lower`. -/
def lowerStr (s : String) : String := String.mk (s.data.map Char.toLower)

/-- The `HEADER_KEYWORDS` vocabulary of `detect_header_row`. -/
def HEADER_KEYWORDS : List String :=
  ["instrument", "market position", "quantity", "entry price",
   "exit price", "profit", "commission", "mae", "mfe",
   "entry time", "exit time", "trade", "entry name", "exit name",
   "cum. net profit", "run-up", "drawdown", "account", "contract",
   "entry", "exit", "p&l", "pnl"]

/-- One row of the header probe: the set `{str(v).strip().lower() | pd.notna v}`
meets `HEADER_KEYWORDS` iff some non-`na` cell normalises to a keyword. -/
def rowMatches (row : List Cell) : Bool :=
  row.any (fun c => c.notna && HEADER_KEYWORDS.contains (lowerStr (trimStr (cellToStr c))))

/-- The `for i, row in raw.iterrows()` loop of `detect_header_row`: return the
running index at the first matching row, `0` when none matches. -/
def scanRows (i : Nat) : List (List Cell) → Nat
  | [] => 0
  | r :: rs => if rowMatches r then i else scanRows (i + 1) rs

/-- `detect_header_row` of `app.py`: probe the first 30 rows (`nrows=30`),
return the index of the first keyword row, `0` on no match or read failure. -/
def detect_header_row (f : SrcFile) : Nat :=
  match f.raw with
  | none => 0
  | some g => scanRows 0 (g.take 30)

/-- Pandas column naming for the header row: a `NaN` header cell at position
`j` becomes `Unnamed: j`, any other cell its string form. -/
def headerNames : Nat → List Cell → List String
  | _, [] => []
  | j, c :: cs =>
      (match c with
       | Cell.na => "Unnamed: " ++ toString j
       | c => cellToStr c) :: headerNames (j + 1) cs

/-- Rectangularise one data row to the header width `n`, padding with `NaN`
(pandas data rows always have exactly the frame's width). -/
def setWidth (n : Nat) (r : List Cell) : List Cell :=
  r.take n ++ List.replicate (n - r.length) Cell.na

/-- `df.dropna(how="all")`: keep the rows having at least one non-`na` cell. -/
def dropEmptyRows (rows : List (List Cell)) : List (List Cell) :=
  rows.filter (fun r => r.any Cell.notna)

/-- Column positions that survive `df.dropna(axis=1, how="all")`: those at
which some row has a non-`na` cell. -/
def keepCols (t : Table) : List Nat :=
  (List.range t.cols.length).filter
    (fun j => t.rows.any (fun r => Cell.notna (r.getD j Cell.na)))

/-- `df.dropna(axis=1, how="all")`: keep the column positions at which some
row has a non-`na` cell, projecting names and rows accordingly. -/
def dropEmptyCols (t : Table) : Table :=
  { cols := (keepCols t).map (fun j => t.cols.getD j ""),
    rows := t.rows.map (fun r => (keepCols t).map (fun j => r.getD j Cell.na)) }

/-- Shared tail of `read_file` after a successful pandas parse: take the
header row's cells as column names, the rows below as data (rectangularised
to the header width, as in a `DataFrame`), drop all-`na` rows, drop all-`na`
columns, trim the column names, and fail on an empty result (`df.empty`). -/
def buildTable (grid : List (List Cell)) (header_row : Nat) : Option Table :=
  match grid.drop header_row with
  | [] => none
  | hdr :: data =>
    let cols0 := headerNames 0 hdr
    let t1 : Table :=
      dropEmptyCols { cols := cols0,
                      rows := dropEmptyRows (data.map (setWidth cols0.length)) }
    let t2 : Table := { cols := t1.cols.map trimStr, rows := t1.rows }
    if t2.rows.isEmpty || t2.cols.isEmpty then none else some t2

/-- `read_file` of `app.py`: dispatch on extension, parse with the detected
header row, drop all-`na` rows then all-`na` columns, trim column names, and
return `none` for unsupported extensions, read failures, or an empty result. -/
def read_file (f : SrcFile) : Option Table :=
  let header_row := detect_header_row f
  match f.ext, f.raw with
  | FileExt.other, _ => none
  | _, none => none
  | _, some g => buildTable g header_row

/-- A progress-channel message pushed by `compile_files`. -/
inductive Event where
  | progress (current total : Nat) (file : String) : Event
  | done (rows dupes : Nat) (filename : String) : Event
  | error (message : String) : Event
deriving DecidableEq, Repr

/-- Terminal events of the progress stream (`done` or `error`). -/
def Event.isTerminal : Event → Bool
  | Event.done _ _ _ => true
  | Event.error _ => true
  | _ => false

/-- Error events of the progress stream. -/
def Event.isError : Event → Bool
  | Event.error _ => true
  | _ => false

/-- The per-file progress events of the `for idx, fp in enumerate(file_paths, 1)`
loop: running 1-based index, fixed total, file basename. -/
def progressEvents (i total : Nat) : List SrcFile → List Event
  | [] => []
  | f :: fs => Event.progress i total f.name :: progressEvents (i + 1) total fs

/-- Column union of `pd.concat`: columns of the first frame, then each later
frame's new columns in first-seen order. -/
def unionCols (ts : List Table) : List String :=
  ts.foldl (fun acc t => acc ++ t.cols.filter (fun c => !acc.contains c)) []

/-- Align one row of a frame with columns `tcols` to the concatenated column
list `cols`; a column absent from the frame yields `NaN`. -/
def reindexRow (tcols cols : List String) (row : List Cell) : List Cell :=
  cols.map (fun c =>
    match tcols.findIdx? (fun d => d == c) with
    | some j => row.getD j Cell.na
    | none => Cell.na)

/-- `pd.concat(frames, ignore_index=True)`: union columns by name, stack all
rows in order, missing columns becoming `NaN`. -/
def concatTables (ts : List Table) : Table :=
  let cols := unionCols ts
  { cols := cols, rows := (ts.map (fun t => t.rows.map (reindexRow t.cols cols))).flatten }

/-- `df.drop_duplicates` over all columns: keep each row's first occurrence,
preserving order; `seen` accumulates the rows already emitted. -/
def dedupAux (seen : List (List Cell)) : List (List Cell) → List (List Cell)
  | [] => []
  | r :: rs => if r ∈ seen then dedupAux seen rs else r :: dedupAux (r :: seen) rs

/-- Row deduplication of `compile_files` (`drop_duplicates(subset=data_cols)`
with `data_cols` = all columns). -/
def dedupRows (rows : List (List Cell)) : List (List Cell) := dedupAux [] rows

/-- The temporal keywords of the sort loop. -/
def TEMPORAL_KEYWORDS : List String := ["time", "date", "entry", "exit"]

/-- Python `needle in hay` on strings. -/
def strContains (hay needle : String) : Bool :=
  (List.range (hay.data.length + 1)).any (fun i => needle.data.isPrefixOf (hay.data.drop i))

/-- A column name is a temporal-sort candidate when its lower-cased form
contains one of the temporal keywords. -/
def isCandidate (name : String) : Bool :=
  TEMPORAL_KEYWORDS.any (fun k => strContains (lowerStr name) k)

/-- Elementwise behaviour of `pd.to_datetime` on one cell: `NaN` becomes `NaT`
(kept as `na`), any other cell must parse into a timestamp. -/
def parseCellNaT (parse : Cell → Option Nat) : Cell → Option Cell
  | Cell.na => some Cell.na
  | c => (parse c).map Cell.time

/-- Whole-column `pd.to_datetime`: succeeds iff every cell converts, returning
the converted column; any failing cell raises (models the `except` branch). -/
def parseColumn (parse : Cell → Option Nat) : List Cell → Option (List Cell)
  | [] => some []
  | c :: cs =>
    match parseCellNaT parse c, parseColumn parse cs with
    | some v, some vs => some (v :: vs)
    | _, _ => none

/-- The cells of column `j`, top to bottom. -/
def colCells (t : Table) (j : Nat) : List Cell :=
  t.rows.map (fun r => r.getD j Cell.na)

/-- Sort key of a converted cell: its timestamp, `NaT` sorting last (`⊤`). -/
def cellKey : Cell → WithTop Nat
  | Cell.time t => (t : WithTop Nat)
  | _ => ⊤

/-- Row ordering used by `sort_values(col)`: compare the cells in column `j`. -/
def rowLe (j : Nat) (r s : List Cell) : Prop :=
  cellKey (r.getD j Cell.na) ≤ cellKey (s.getD j Cell.na)

instance (j : Nat) : DecidableRel (rowLe j) := fun r s => by
  unfold rowLe; infer_instance

instance (j : Nat) : IsTotal (List Cell) (rowLe j) :=
  ⟨fun r s => le_total (cellKey (r.getD j Cell.na)) (cellKey (s.getD j Cell.na))⟩

instance (j : Nat) : IsTrans (List Cell) (rowLe j) :=
  ⟨fun _ _ _ h h' => le_trans h h'⟩

/-- Effect of a successful candidate on the table: write the converted column
back (`combined[col] = pd.to_datetime(...)`), then sort rows ascending by it
(`combined.sort_values(col)`), `NaT` last. -/
def sortByCol (j : Nat) (parsed : List Cell) (t : Table) : Table :=
  { cols := t.cols,
    rows := List.insertionSort (rowLe j)
      (List.zipWith (fun r v => r.set j v) t.rows parsed) }

/-- The `for col in combined.columns` sort loop of `compile_files`, iterating
position-and-name pairs: skip non-candidates, skip candidates whose conversion
raises, and stop (`break`) at the first successful candidate. -/
def sortLoop (parse : Cell → Option Nat) (t : Table) : List (Nat × String) → Table
  | [] => t
  | (j, name) :: rest =>
    if isCandidate name then
      match parseColumn parse (colCells t j) with
      | some parsed => sortByCol j parsed t
      | none => sortLoop parse t rest
    else sortLoop parse t rest

/-- The first successful temporal candidate: its column position and the
converted column, `none` when no candidate converts. -/
def firstHit (parse : Cell → Option Nat) (t : Table) :
    List (Nat × String) → Option (Nat × List Cell)
  | [] => none
  | (j, name) :: rest =>
    if isCandidate name then
      match parseColumn parse (colCells t j) with
      | some parsed => some (j, parsed)
      | none => firstHit parse t rest
    else firstHit parse t rest

/-- The whole temporal-sort step (lines 110–119 of `app.py`). -/
def sortPhase (parse : Cell → Option Nat) (t : Table) : Table :=
  sortLoop parse t (t.cols.enum)

/-- Character sanitisation of the account label: keep alphanumerics, space,
underscore and hyphen, replace everything else by underscore. -/
def sanitizeChar (c : Char) : Char :=
  if c.isAlphanum || c = ' ' || c = '_' || c = '-' then c else '_'

/-- `safe_name` of `compile_files`: sanitise each character, then strip. -/
def sanitize (s : String) : String :=
  trimStr (String.mk (s.data.map sanitizeChar))

/-- Basename of the output file written by `compile_files`. -/
def outFileName (account_name : String) : String :=
  sanitize account_name ++ "_compiled.csv"

/-- `compile_files` of `app.py`, as the pair of the event sequence pushed to
the job's progress queue and the outcome: `none` on the no-readable-data
failure path, otherwise the output basename, the compiled table (what
`to_csv` writes) and the duplicate count. -/
def compile_files (parse : Cell → Option Nat) (file_paths : List SrcFile)
    (account_name : String) : List Event × Option (String × Table × Nat) :=
  let total := file_paths.length
  let progress := progressEvents 1 total file_paths
  let frames := file_paths.filterMap read_file
  if frames.isEmpty then
    (progress ++ [Event.error "No readable data found in the selected files."], none)
  else
    let combined := concatTables frames
    let before := combined.rows.length
    let deduped : Table := { cols := combined.cols, rows := dedupRows combined.rows }
    let dupes_removed := before - deduped.rows.length
    let final := sortPhase parse deduped
    let fname := outFileName account_name
    (progress ++ [Event.done final.rows.length dupes_removed fname],
     some (fname, final, dupes_removed))

/-- A string with no leading and no trailing whitespace (the observable
outcome of Python `str.strip`). -/
def edgeTrimmed (s : String) : Bool :=
  (match s.data.head? with
   | some c => !c.isWhitespace
   | none => true) &&
  (match s.data.getLast? with
   | some c => !c.isWhitespace
   | none => true)

/-- A timestamp parser that rejects every cell (for inputs with no temporal
column the choice is irrelevant: `pd.to_datetime` is never reached). -/
def parseNone : Cell → Option Nat := fun _ => none

/-- Placeholder file used as a `getD` default. -/
def dummyFile : SrcFile := { name := "", ext := FileExt.other, raw := none }

/-- Concrete file A of the spec's merge example: columns (symbol, qty, price),
two identical rows. -/
def fileA : SrcFile :=
  { name := "A.csv", ext := FileExt.csv,
    raw := some [[Cell.str "symbol", Cell.str "qty", Cell.str "price"],
                 [Cell.str "AAPL", Cell.num 10, Cell.str "100.0"],
                 [Cell.str "AAPL", Cell.num 10, Cell.str "100.0"]] }

/-- Concrete file B of the spec's merge example. -/
def fileB : SrcFile :=
  { name := "B.csv", ext := FileExt.csv,
    raw := some [[Cell.str "symbol", Cell.str "qty", Cell.str "price"],
                 [Cell.str "AAPL", Cell.num 10, Cell.str "100.0"],
                 [Cell.str "MSFT", Cell.num 5, Cell.str "50.0"]] }

/-- The table `read_file` produces for `fileA`. -/
def tableA : Table :=
  { cols := ["symbol", "qty", "price"],
    rows := [[Cell.str "AAPL", Cell.num 10, Cell.str "100.0"],
             [Cell.str "AAPL", Cell.num 10, Cell.str "100.0"]] }

/-- A concrete file with a temporal column (`entry time`) parsed by
`parseStub`, used to exercise the sort step. -/
def fileT : SrcFile :=
  { name := "T.csv", ext := FileExt.csv,
    raw := some [[Cell.str "entry time", Cell.str "qty"],
                 [Cell.str "2024-01-02", Cell.num 7],
                 [Cell.str "2024-01-01", Cell.num 3]] }

/-- A timestamp parser for the concrete sort example: maps the two date
strings of `fileT` to ordered timestamps. -/
def parseStub : Cell → Option Nat
  | Cell.str "2024-01-01" => some 1
  | Cell.str "2024-01-02" => some 2
  | _ => none

/-- The table `read_file` produces for `fileT`. -/
def tableT : Table :=
  { cols := ["entry time", "qty"],
    rows := [[Cell.str "2024-01-02", Cell.num 7],
             [Cell.str "2024-01-01", Cell.num 3]] }

theorem scanRows_zero_or_lt (l : List (List Cell)) :
    ∀ i : Nat, scanRows i l = 0 ∨ scanRows i l < i + l.length := by
  induction l with
  | nil => intro i; left; rfl
  | cons r rs ih =>
    intro i
    by_cases h : rowMatches r = true
    · right
      have hs : scanRows i (r :: rs) = i := by simp [scanRows, h]
      rw [hs]
      simp only [List.length_cons]
      omega
    · have hs : scanRows i (r :: rs) = scanRows (i + 1) rs := by simp [scanRows, h]
      rw [hs]
      rcases ih (i + 1) with h0 | hlt
      · left; exact h0
      · right
        simp only [List.length_cons]
        omega

theorem scanRows_no_match (l : List (List Cell)) :
    ∀ i : Nat, (∀ r ∈ l, rowMatches r = false) → scanRows i l = 0 := by
  induction l with
  | nil => intro i _; rfl
  | cons r rs ih =>
    intro i h
    have hr : rowMatches r = false := h r (List.mem_cons_self r rs)
    simpa [scanRows, hr] using ih (i + 1) (fun x hx => h x (List.mem_cons_of_mem r hx))

theorem scanRows_first (l : List (List Cell)) :
    ∀ (i0 i : Nat), i < l.length → rowMatches (l.getD i []) = true →
      (∀ k, k < i → rowMatches (l.getD k []) = false) → scanRows i0 l = i0 + i := by
  induction l with
  | nil => intro i0 i h; simp at h
  | cons r rs ih =>
    intro i0 i hi hmatch hbefore
    by_cases hr : rowMatches r
    · have hizero : i = 0 := by
        by_contra hne
        have h0 : rowMatches ((r :: rs).getD 0 []) = false := hbefore 0 (Nat.pos_of_ne_zero hne)
        simp [List.getD] at h0
        exact absurd hr (by simp [h0])
      subst hizero
      simp [scanRows, hr]
    · have hipos : i ≠ 0 := by
        intro h0
        subst h0
        simp [List.getD] at hmatch
        exact hr (by simp [hmatch])
      obtain ⟨i', rfl⟩ : ∃ i', i = i' + 1 := ⟨i - 1, by omega⟩
      have hlen : i' < rs.length := by simpa using hi
      have hm : rowMatches (rs.getD i' []) = true := by simpa [List.getD] using hmatch
      have hb : ∀ k, k < i' → rowMatches (rs.getD k []) = false := by
        intro k hk
        have := hbefore (k + 1) (by omega)
        simpa [List.getD] using this
      have := ih (i0 + 1) i' hlen hm hb
      simp only [scanRows, hr, Bool.false_eq_true, ite_false]
      omega

theorem dropWhile_head_not (p : Char → Bool) (l : List Char) :
    ∀ c, (l.dropWhile p).head? = some c → p c = false := by
  induction l with
  | nil => intro c h; simp at h
  | cons x xs ih =>
    intro c h
    by_cases hp : p x = true
    · exact ih c (by simpa [List.dropWhile, hp] using h)
    · have hx : x = c := by
        simp [List.dropWhile, hp] at h
        exact h
      subst hx
      simpa using hp

theorem dropWhile_getLast? (p : Char → Bool) (l : List Char) :
    l.dropWhile p ≠ [] → (l.dropWhile p).getLast? = l.getLast? := by
  induction l with
  | nil => intro h; simp [List.dropWhile] at h
  | cons x xs ih =>
    intro h
    by_cases hp : p x = true
    · have hxs : xs.dropWhile p ≠ [] := by simpa [List.dropWhile, hp] using h
      have hxsne : xs ≠ [] := by
        intro hnil
        subst hnil
        simp [List.dropWhile] at hxs
      rcases xs with _ | ⟨y, ys⟩
      · exact absurd rfl hxsne
      · rw [List.dropWhile_cons_of_pos hp]
        rw [ih (by simpa [List.dropWhile, hp] using h)]
        simp [List.getLast?_cons_cons]
    · rw [List.dropWhile_cons_of_neg (by simpa using hp)]

theorem trimChars_last (l : List Char) :
    ∀ c, (trimChars l).getLast? = some c → Char.isWhitespace c = false := by
  intro c h
  unfold trimChars at h
  rw [List.getLast?_reverse] at h
  exact dropWhile_head_not _ _ c h

theorem trimChars_head (l : List Char) :
    ∀ c, (trimChars l).head? = some c → Char.isWhitespace c = false := by
  intro c h
  unfold trimChars at h
  rw [List.head?_reverse] at h
  have hne : (l.dropWhile Char.isWhitespace).reverse.dropWhile Char.isWhitespace ≠ [] := by
    intro hnil
    rw [hnil] at h
    simp at h
  rw [dropWhile_getLast? _ _ hne, List.getLast?_reverse] at h
  exact dropWhile_head_not _ _ c h

theorem edgeTrimmed_trimStr (s : String) : edgeTrimmed (trimStr s) = true := by
  have hdata : (trimStr s).data = trimChars s.data := rfl
  unfold edgeTrimmed
  rw [hdata]
  rcases h1 : (trimChars s.data).head? with _ | c <;>
    rcases h2 : (trimChars s.data).getLast? with _ | d
  · simp
  · simp [trimChars_last s.data _ h2]
  · simp [trimChars_head s.data _ h1]
  · simp [trimChars_head s.data _ h1, trimChars_last s.data _ h2]

/-- C9: `detect_header_row` is total and always lands inside the 30-row scan
window: its value is an index in `[0, 30)` for every input file. -/
theorem detect_header_row_lt_30 (f : SrcFile) : detect_header_row f < 30 := by
  rcases hr : f.raw with _ | g
  · simp only [detect_header_row, hr]
    omega
  · have h30 : (g.take 30).length ≤ 30 := List.length_take_le 30 g
    rcases scanRows_zero_or_lt (g.take 30) 0 with h | h
    · simp only [detect_header_row, hr]
      omega
    · simp only [detect_header_row, hr]
      omega

/-- C4: the Header Locator scans at most the first 30 rows; on a read failure
it returns 0; when no scanned row has a cell normalising into the keyword
vocabulary it returns 0; and it returns `i` whenever row `i` is the first row
inside the window whose trimmed, lower-cased, non-`na` cell values meet the
vocabulary. -/
theorem detect_header_row_spec (f : SrcFile) :
    (f.raw = none → detect_header_row f = 0) ∧
    (∀ g, f.raw = some g →
      ((∀ r ∈ g.take 30, rowMatches r = false) → detect_header_row f = 0) ∧
      (∀ i, i < (g.take 30).length → rowMatches ((g.take 30).getD i []) = true →
        (∀ k, k < i → rowMatches ((g.take 30).getD k []) = false) →
        detect_header_row f = i)) := by
  refine ⟨fun h => by simp [detect_header_row, h], fun g hg => ⟨fun hnone => ?_, fun i hi hm hb => ?_⟩⟩
  · simp only [detect_header_row, hg]
    exact scanRows_no_match (g.take 30) 0 hnone
  · simp only [detect_header_row, hg]
    simpa using scanRows_first (g.take 30) 0 i hi hm hb

/-- Witness for C4: on the concrete file `fileT`, whose row 0 contains the
keyword `entry time`, the locator returns 0 through the first-match clause. -/
theorem detect_header_row_spec_witness : detect_header_row fileT = 0 :=
  ((detect_header_row_spec fileT).2
      [[Cell.str "entry time", Cell.str "qty"],
       [Cell.str "2024-01-02", Cell.num 7],
       [Cell.str "2024-01-01", Cell.num 3]] rfl).2 0 (by decide) (by decide)
    (fun k hk => absurd hk (by omega))

/-- C1: on the spec's two concrete example files (columns symbol, qty, price,
no temporal column), `compile_files` reports two progress events, keeps the
first occurrence of each duplicated row in order, outputs exactly the
two-row table, and reports duplicate count 2. -/
theorem compile_files_merge_example :
    compile_files parseNone [fileA, fileB] "acct" =
      ([Event.progress 1 2 "A.csv", Event.progress 2 2 "B.csv",
        Event.done 2 2 "acct_compiled.csv"],
       some ("acct_compiled.csv",
         { cols := ["symbol", "qty", "price"],
           rows := [[Cell.str "AAPL", Cell.num 10, Cell.str "100.0"],
                    [Cell.str "MSFT", Cell.num 5, Cell.str "50.0"]] },
         2)) := by decide

/-- C7: account-label sanitisation keeps alphanumerics, space, underscore and
hyphen, replaces every other character by underscore, strips the result, and
on the spec's example `My Account #1` yields `My Account _1` with output
basename `My Account _1_compiled.csv`. -/
theorem sanitize_spec :
    (∀ c : Char, (c.isAlphanum = true ∨ c = ' ' ∨ c = '_' ∨ c = '-') → sanitizeChar c = c) ∧
    (∀ c : Char, ¬(c.isAlphanum = true ∨ c = ' ' ∨ c = '_' ∨ c = '-') → sanitizeChar c = '_') ∧
    (∀ s : String, sanitize s = trimStr (String.mk (s.data.map sanitizeChar))) ∧
    (∀ s : String, edgeTrimmed (sanitize s) = true) ∧
    sanitize "My Account #1" = "My Account _1" ∧
    outFileName "My Account #1" = "My Account _1_compiled.csv" := by
  refine ⟨fun c hc => ?_, fun c hc => ?_, fun s => rfl, fun s => edgeTrimmed_trimStr _, by decide, by decide⟩
  · unfold sanitizeChar
    rcases hc with h | h | h | h <;> simp [h]
  · unfold sanitizeChar
    push_neg at hc
    simp [hc.1, hc.2.1, hc.2.2.1, hc.2.2.2]

/-- Witness for C7: the kept character `A` and the replaced character `#`. -/
theorem sanitize_spec_witness : sanitizeChar 'A' = 'A' ∧ sanitizeChar '#' = '_' :=
  ⟨sanitize_spec.1 'A' (Or.inl (by decide)),
   sanitize_spec.2.1 '#' (by decide)⟩

theorem progressEvents_length (fs : List SrcFile) :
    ∀ (i tot : Nat), (progressEvents i tot fs).length = fs.length := by
  induction fs with
  | nil => intro i tot; rfl
  | cons f fs ih => intro i tot; simp [progressEvents, ih]

theorem progressEvents_getD (fs : List SrcFile) :
    ∀ (i tot k : Nat), k < fs.length →
      (progressEvents i tot fs).getD k (Event.error "") =
        Event.progress (i + k) tot ((fs.getD k dummyFile).name) := by
  induction fs with
  | nil => intro i tot k hk; simp at hk
  | cons f fs ih =>
    intro i tot k hk
    rcases k with _ | k'
    · simp [progressEvents, List.getD]
    · have := ih (i + 1) tot k' (by simpa using hk)
      simp only [progressEvents, List.getD_cons_succ]
      rw [this]
      congr 1
      omega

theorem progressEvents_filter_isError (fs : List SrcFile) :
    ∀ (i tot : Nat), (progressEvents i tot fs).filter Event.isError = [] := by
  induction fs with
  | nil => intro i tot; rfl
  | cons f fs ih => intro i tot; simp [progressEvents, Event.isError, ih]

theorem progressEvents_filter_isTerminal (fs : List SrcFile) :
    ∀ (i tot : Nat), (progressEvents i tot fs).filter Event.isTerminal = [] := by
  induction fs with
  | nil => intro i tot; rfl
  | cons f fs ih => intro i tot; simp [progressEvents, Event.isTerminal, ih]

/-- C2: whenever no input file yields a readable non-empty table,
`compile_files` pushes exactly one error event, carrying exactly the message
`No readable data found in the selected files.`, and signals failure with no
output produced. -/
theorem compile_files_no_readable (parse : Cell → Option Nat) (files : List SrcFile)
    (account : String) (h : files.filterMap read_file = []) :
    (compile_files parse files account).1.filter Event.isError =
      [Event.error "No readable data found in the selected files."] ∧
    (compile_files parse files account).2 = none := by
  constructor
  · simp [compile_files, h, List.filter_append, progressEvents_filter_isError, Event.isError]
  · simp [compile_files, h]

/-- Witness for C2: a single unreadable file (unsupported extension, failed
read) drives `compile_files` down the error path. -/
theorem compile_files_no_readable_witness :
    (compile_files parseNone [dummyFile] "acct").1.filter Event.isError =
      [Event.error "No readable data found in the selected files."] ∧
    (compile_files parseNone [dummyFile] "acct").2 = none :=
  compile_files_no_readable parseNone [dummyFile] "acct" (by decide)

theorem compile_files_events_shape (parse : Cell → Option Nat) (files : List SrcFile)
    (account : String) :
    ∃ t : Event, t.isTerminal = true ∧
      (compile_files parse files account).1 = progressEvents 1 files.length files ++ [t] := by
  rcases hfr : files.filterMap read_file with _ | ⟨f0, fr⟩
  · exact ⟨Event.error "No readable data found in the selected files.", rfl,
      by simp [compile_files, hfr]⟩
  · simp only [compile_files, hfr, List.isEmpty_cons, Bool.false_eq_true, ite_false]
    refine ⟨_, ?_, rfl⟩
    rfl

/-- C8: the stream pushed for one `compile_files` invocation on `N` files is
exactly `N` progress events — the `i`-th carrying 1-based index `i`, total
`N`, and the `i`-th file's basename, in input order, each emitted before the
corresponding file is read — followed by exactly one terminal event (`done`
or `error`), after which nothing more is pushed. -/
theorem compile_files_event_stream (parse : Cell → Option Nat) (files : List SrcFile)
    (account : String) :
    ∃ t : Event,
      (compile_files parse files account).1 = progressEvents 1 files.length files ++ [t] ∧
      t.isTerminal = true ∧
      (compile_files parse files account).1.filter Event.isTerminal = [t] ∧
      (progressEvents 1 files.length files).length = files.length ∧
      (∀ i, i < files.length →
        (progressEvents 1 files.length files).getD i (Event.error "") =
          Event.progress (i + 1) files.length ((files.getD i dummyFile).name)) := by
  obtain ⟨t, ht, hsh⟩ := compile_files_events_shape parse files account
  refine ⟨t, hsh, ht, ?_, progressEvents_length files 1 files.length, ?_⟩
  · rw [hsh, List.filter_append, progressEvents_filter_isTerminal files 1 files.length]
    simp [ht]
  · intro i hi
    rw [progressEvents_getD files 1 files.length i hi, Nat.add_comm]

/-- Witness for C8: on the two concrete example files, the first progress
event carries index 1, total 2, and basename `A.csv`. -/
theorem compile_files_event_stream_witness :
    (progressEvents 1 2 [fileA, fileB]).getD 0 (Event.error "") =
      Event.progress 1 2 "A.csv" := by
  obtain ⟨t, _, _, _, _, h5⟩ := compile_files_event_stream parseNone [fileA, fileB] "acct"
  simpa using h5 0 (by decide)

theorem sortLoop_eq_firstHit (parse : Cell → Option Nat) (t : Table) :
    ∀ l : List (Nat × String),
      sortLoop parse t l =
        match firstHit parse t l with
        | some (j, parsed) => sortByCol j parsed t
        | none => t := by
  intro l
  induction l with
  | nil => rfl
  | cons p rest ih =>
    rcases p with ⟨j, name⟩
    by_cases hc : isCandidate name = true
    · rcases hp : parseColumn parse (colCells t j) with _ | parsed
      · simpa [sortLoop, firstHit, hc, hp] using ih
      · simp [sortLoop, firstHit, hc, hp]
    · simpa [sortLoop, firstHit, hc] using ih

theorem firstHit_enumFrom_spec (parse : Cell → Option Nat) (t : Table) :
    ∀ (cs : List String) (i j : Nat) (parsed : List Cell),
      firstHit parse t (List.enumFrom i cs) = some (j, parsed) →
      ∃ name, (j, name) ∈ List.enumFrom i cs ∧ isCandidate name = true ∧
        parseColumn parse (colCells t j) = some parsed ∧
        (∀ k kname, (k, kname) ∈ List.enumFrom i cs → k < j → isCandidate kname = true →
          parseColumn parse (colCells t k) = none) := by
  intro cs
  induction cs with
  | nil => intro i j parsed h; simp [firstHit] at h
  | cons c rest ih =>
    intro i j parsed h
    rw [List.enumFrom_cons] at h
    by_cases hc : isCandidate c = true
    · rcases hp : parseColumn parse (colCells t i) with _ | parsedi
      · have h' : firstHit parse t (List.enumFrom (i + 1) rest) = some (j, parsed) := by
          simpa [firstHit, hc, hp] using h
        obtain ⟨name, hmem, hcand, hparse, hbefore⟩ := ih (i + 1) j parsed h'
        refine ⟨name, ?_, hcand, hparse, ?_⟩
        · rw [List.enumFrom_cons]; exact List.mem_cons_of_mem _ hmem
        · intro k kname hk hkj hkcand
          rw [List.enumFrom_cons] at hk
          rcases List.mem_cons.mp hk with heq | htail
          · rcases Prod.mk.injEq .. ▸ heq with ⟨hki, hknamec⟩
            subst hki
            exact hp
          · exact hbefore k kname htail hkj hkcand
      · have hji : j = i ∧ parsed = parsedi := by
          have := h
          simp [firstHit, hc, hp] at this
          exact ⟨this.1.symm, this.2.symm⟩
        rcases hji with ⟨rfl, rfl⟩
        refine ⟨c, ?_, hc, hp, ?_⟩
        · rw [List.enumFrom_cons]; exact List.mem_cons_self _ _
        · intro k kname hk hkj _
          rw [List.enumFrom_cons] at hk
          rcases List.mem_cons.mp hk with heq | htail
          · have : k = j := congrArg Prod.fst heq
            omega
          · have := (List.mem_enumFrom htail).1
            omega
    · have h' : firstHit parse t (List.enumFrom (i + 1) rest) = some (j, parsed) := by
        simpa [firstHit, hc] using h
      obtain ⟨name, hmem, hcand, hparse, hbefore⟩ := ih (i + 1) j parsed h'
      refine ⟨name, ?_, hcand, hparse, ?_⟩
      · rw [List.enumFrom_cons]; exact List.mem_cons_of_mem _ hmem
      · intro k kname hk hkj hkcand
        rw [List.enumFrom_cons] at hk
        rcases List.mem_cons.mp hk with heq | htail
        · rcases Prod.mk.injEq .. ▸ heq with ⟨hki, hknamec⟩
          rw [hknamec] at hkcand
          exact absurd hkcand hc
        · exact hbefore k kname htail hkj hkcand

theorem parseColumn_forall₂ (p : Cell → Option Nat) :
    ∀ (cs vs : List Cell), parseColumn p cs = some vs →
      List.Forall₂ (fun c v => parseCellNaT p c = some v) cs vs := by
  intro cs
  induction cs with
  | nil =>
    intro vs h
    simp only [parseColumn, Option.some.injEq] at h
    subst h
    exact List.Forall₂.nil
  | cons c cs ih =>
    intro vs h
    rcases h1 : parseCellNaT p c with _ | v
    · rw [parseColumn, h1] at h
      simp at h
    · rcases h2 : parseColumn p cs with _ | vs'
      · rw [parseColumn, h1, h2] at h
        simp at h
      · rw [parseColumn, h1, h2] at h
        simp only [Option.some.injEq] at h
        subst h
        exact List.Forall₂.cons h1 (ih vs' h2)

theorem parseColumn_length (p : Cell → Option Nat) (cs vs : List Cell)
    (h : parseColumn p cs = some vs) : vs.length = cs.length :=
  (parseColumn_forall₂ p cs vs h).length_eq.symm

theorem parseCellNaT_shape (p : Cell → Option Nat) (c v : Cell)
    (h : parseCellNaT p c = some v) : v = Cell.na ∨ ∃ u, v = Cell.time u := by
  cases c with
  | na =>
    left
    simp only [parseCellNaT, Option.some.injEq] at h
    exact h.symm
  | str s =>
    right
    simp only [parseCellNaT, Option.map_eq_some'] at h
    obtain ⟨u, _, hv⟩ := h
    exact ⟨u, hv.symm⟩
  | num n =>
    right
    simp only [parseCellNaT, Option.map_eq_some'] at h
    obtain ⟨u, _, hv⟩ := h
    exact ⟨u, hv.symm⟩
  | time u0 =>
    right
    simp only [parseCellNaT, Option.map_eq_some'] at h
    obtain ⟨u, _, hv⟩ := h
    exact ⟨u, hv.symm⟩

theorem mem_zipWith_of_forall₂ {α β γ : Type} (f : α → β → γ) (P : α → β → Prop) :
    ∀ (l₁ : List α) (l₂ : List β), List.Forall₂ P l₁ l₂ →
      ∀ c ∈ List.zipWith f l₁ l₂, ∃ a ∈ l₁, ∃ b, P a b ∧ c = f a b := by
  intro l₁ l₂ h
  induction h with
  | nil => intro c hc; simp at hc
  | @cons a b l₁ l₂ hab htail ih =>
    intro c hc
    rcases List.mem_cons.mp (by simpa using hc) with rfl | htl
    · exact ⟨a, List.mem_cons_self a l₁, b, hab, rfl⟩
    · obtain ⟨a', ha', b', hP, hc'⟩ := ih c htl
      exact ⟨a', List.mem_cons_of_mem a ha', b', hP, hc'⟩

/-- C3: the temporal-sort step scans columns left to right; it settles on the
first column whose name contains a temporal keyword (case-insensitive) and
whose values all convert to timestamps, sorting the whole table ascending by
that column; every earlier candidate failed to convert; once a candidate
succeeds no later column influences the result; and when no candidate
converts the table keeps its post-deduplication order. -/
theorem temporal_sort_spec (parse : Cell → Option Nat) (t : Table) :
    (firstHit parse t t.cols.enum = none → sortPhase parse t = t) ∧
    (∀ j parsed, firstHit parse t t.cols.enum = some (j, parsed) →
      ∃ name, (j, name) ∈ t.cols.enum ∧ isCandidate name = true ∧
        parseColumn parse (colCells t j) = some parsed ∧
        (∀ k kname, (k, kname) ∈ t.cols.enum → k < j → isCandidate kname = true →
          parseColumn parse (colCells t k) = none) ∧
        sortPhase parse t = sortByCol j parsed t ∧
        List.Sorted (rowLe j) (sortPhase parse t).rows) := by
  constructor
  · intro h
    unfold sortPhase
    rw [sortLoop_eq_firstHit parse t t.cols.enum, h]
  · intro j parsed h
    obtain ⟨name, hmem, hcand, hparse, hbefore⟩ :=
      firstHit_enumFrom_spec parse t t.cols 0 j parsed h
    have hs : sortPhase parse t = sortByCol j parsed t := by
      unfold sortPhase
      rw [sortLoop_eq_firstHit parse t t.cols.enum, h]
    refine ⟨name, hmem, hcand, hparse, fun k kn hk => hbefore k kn hk, hs, ?_⟩
    rw [hs]
    exact List.sorted_insertionSort (rowLe j) _

/-- Witness for C3: on the concrete table with temporal column `entry time`,
the loop settles on column 0 and sorts by it. -/
theorem temporal_sort_spec_witness :
    sortPhase parseStub tableT = sortByCol 0 [Cell.time 2, Cell.time 1] tableT := by
  obtain ⟨name, _, _, _, _, hs, _⟩ :=
    (temporal_sort_spec parseStub tableT).2 0 [Cell.time 2, Cell.time 1] (by decide)
  exact hs

/-- C10: when the temporal sort succeeds on column `j`, the resulting rows
are a permutation of the original rows with only column `j` rewritten to the
converted timestamps — each output row is some input row with column `j`
replaced by the parsed value of that row's original cell (a timestamp, or
`NaT` for an `NaN` source cell) and every other column untouched. -/
theorem sort_replaces_column (parse : Cell → Option Nat) (t : Table) (j : Nat)
    (parsed : List Cell) (h : firstHit parse t t.cols.enum = some (j, parsed)) :
    (sortPhase parse t).cols = t.cols ∧
    (sortPhase parse t).rows.Perm (List.zipWith (fun r v => r.set j v) t.rows parsed) ∧
    (∀ r' ∈ (sortPhase parse t).rows, ∃ r ∈ t.rows, ∃ v,
      parseCellNaT parse (r.getD j Cell.na) = some v ∧ r' = r.set j v ∧
      (v = Cell.na ∨ ∃ u, v = Cell.time u)) := by
  obtain ⟨name, hmem, hcand, hparse, hbefore⟩ :=
    firstHit_enumFrom_spec parse t t.cols 0 j parsed h
  have hs : sortPhase parse t = sortByCol j parsed t := by
    unfold sortPhase
    rw [sortLoop_eq_firstHit parse t t.cols.enum, h]
  have hfa : List.Forall₂ (fun r v => parseCellNaT parse (r.getD j Cell.na) = some v)
      t.rows parsed := by
    have hf := parseColumn_forall₂ parse (colCells t j) parsed hparse
    unfold colCells at hf
    exact List.forall₂_map_left_iff.mp hf
  refine ⟨by rw [hs]; rfl, ?_, ?_⟩
  · rw [hs]
    exact List.perm_insertionSort (rowLe j) _
  · intro r' hr'
    rw [hs] at hr'
    have hr'' : r' ∈ List.zipWith (fun r v => r.set j v) t.rows parsed :=
      (List.perm_insertionSort (rowLe j) _).mem_iff.mp hr'
    obtain ⟨r, hrmem, v, hPv, hc⟩ :=
      mem_zipWith_of_forall₂ (fun r v => r.set j v) _ t.rows parsed hfa r' hr''
    exact ⟨r, hrmem, v, hPv, hc, parseCellNaT_shape parse _ v hPv⟩

/-- Witness for C10: on the concrete temporal table, the sorted rows are a
permutation of the rows with column 0 replaced by the parsed timestamps. -/
theorem sort_replaces_column_witness :
    (sortPhase parseStub tableT).rows.Perm
      (List.zipWith (fun r v => r.set 0 v) tableT.rows [Cell.time 2, Cell.time 1]) :=
  (sort_replaces_column parseStub tableT 0 [Cell.time 2, Cell.time 1] (by decide)).2.1

theorem setWidth_length (n : Nat) (r : List Cell) : (setWidth n r).length = n := by
  simp only [setWidth, List.length_append, List.length_take, List.length_replicate]
  omega

theorem mem_keepCols (t : Table) (j : Nat) :
    j ∈ keepCols t ↔ j < t.cols.length ∧
      t.rows.any (fun r => Cell.notna (r.getD j Cell.na)) = true := by
  simp [keepCols, List.mem_filter, List.mem_range]

theorem dropEmptyCols_no_empty_row (t : Table)
    (hw : ∀ r ∈ t.rows, r.length = t.cols.length)
    (hr : ∀ r ∈ t.rows, r.any Cell.notna = true) :
    ∀ r' ∈ (dropEmptyCols t).rows, r'.any Cell.notna = true := by
  intro r' hr'
  obtain ⟨r, hrmem, rfl⟩ := List.mem_map.mp hr'
  obtain ⟨c, hcmem, hc⟩ := List.any_eq_true.mp (hr r hrmem)
  obtain ⟨i, hi, rfl⟩ := List.mem_iff_getElem.mp hcmem
  have hin : i < t.cols.length := hw r hrmem ▸ hi
  have hkeep : i ∈ keepCols t := by
    refine (mem_keepCols t i).mpr ⟨hin, List.any_eq_true.mpr ⟨r, hrmem, ?_⟩⟩
    rw [List.getD_eq_getElem r Cell.na hi]
    exact hc
  refine List.any_eq_true.mpr ⟨r.getD i Cell.na, List.mem_map_of_mem _ hkeep, ?_⟩
  rw [List.getD_eq_getElem r Cell.na hi]
  exact hc

theorem dropEmptyCols_no_empty_col (t : Table) :
    ∀ j, j < (dropEmptyCols t).cols.length →
      (dropEmptyCols t).rows.any (fun r => Cell.notna (r.getD j Cell.na)) = true := by
  intro j hj
  have hjk : j < (keepCols t).length := by
    simpa [dropEmptyCols] using hj
  have hik : (keepCols t)[j] ∈ keepCols t := List.getElem_mem hjk
  obtain ⟨r, hrmem, hcell⟩ := List.any_eq_true.mp ((mem_keepCols t _).mp hik).2
  refine List.any_eq_true.mpr
    ⟨(keepCols t).map (fun k => r.getD k Cell.na), List.mem_map_of_mem _ hrmem, ?_⟩
  rw [List.getD_eq_getElem _ Cell.na (by simpa using hjk), List.getElem_map]
  exact hcell

theorem buildTable_invariants (grid : List (List Cell)) (hrow : Nat) (t : Table)
    (ht : buildTable grid hrow = some t) :
    (∀ r ∈ t.rows, r.any Cell.notna = true) ∧
    (∀ j, j < t.cols.length →
      t.rows.any (fun r => Cell.notna (r.getD j Cell.na)) = true) ∧
    (∀ n ∈ t.cols, edgeTrimmed n = true) ∧
    t.rows ≠ [] ∧ t.cols ≠ [] := by
  unfold buildTable at ht
  rcases hdrop : grid.drop hrow with _ | ⟨hdr, data⟩
  · rw [hdrop] at ht
    exact absurd ht (by simp)
  · rw [hdrop] at ht
    simp only at ht
    split_ifs at ht with hcond
    simp only [Bool.or_eq_true, not_or, Bool.not_eq_true] at hcond
    rcases Option.some.injEq .. ▸ ht with rfl
    set cols0 := headerNames 0 hdr with hcols0
    set t0 : Table :=
      { cols := cols0, rows := dropEmptyRows (data.map (setWidth cols0.length)) } with ht0
    have hw : ∀ r ∈ t0.rows, r.length = t0.cols.length := by
      intro r hrm
      have : r ∈ data.map (setWidth cols0.length) := List.mem_of_mem_filter hrm
      obtain ⟨r0, _, rfl⟩ := List.mem_map.mp this
      exact setWidth_length _ r0
    have hr : ∀ r ∈ t0.rows, r.any Cell.notna = true := by
      intro r hrm
      exact (List.mem_filter.mp hrm).2
    refine ⟨?_, ?_, ?_, ?_, ?_⟩
    · intro r hrm
      exact dropEmptyCols_no_empty_row t0 hw hr r hrm
    · intro j hj
      exact dropEmptyCols_no_empty_col t0 j (by simpa using hj)
    · intro n hn
      obtain ⟨m, _, rfl⟩ := List.mem_map.mp hn
      exact edgeTrimmed_trimStr _
    · simpa using hcond.1
    · simpa using hcond.2

theorem read_file_some (f : SrcFile) (t : Table) (h : read_file f = some t) :
    ∃ g, f.raw = some g ∧ buildTable g (detect_header_row f) = some t := by
  rcases hext : f.ext <;> rcases hraw : f.raw with _ | g <;>
    simp only [read_file, hext, hraw] at h
  all_goals first
    | exact absurd h (by simp)
    | exact ⟨g, rfl, h⟩

/-- C5: every table `read_file` returns contains no all-empty row and no
all-empty column, every column name carries no surrounding whitespace, and
the table is never empty — a file that is empty after cleaning (no rows or
no columns left) yields `null`, as do unsupported extensions and unreadable
files. -/
theorem read_file_invariants (f : SrcFile) :
    (∀ t, read_file f = some t →
      (∀ r ∈ t.rows, r.any Cell.notna = true) ∧
      (∀ j, j < t.cols.length →
        t.rows.any (fun r => Cell.notna (r.getD j Cell.na)) = true) ∧
      (∀ n ∈ t.cols, edgeTrimmed n = true) ∧
      t.rows ≠ [] ∧ t.cols ≠ []) ∧
    (f.ext = FileExt.other → read_file f = none) ∧
    (f.raw = none → read_file f = none) := by
  refine ⟨?_, ?_, ?_⟩
  · intro t ht
    obtain ⟨g, _, hbt⟩ := read_file_some f t ht
    exact buildTable_invariants g (detect_header_row f) t hbt
  · intro hext
    rcases hraw : f.raw with _ | g <;> simp [read_file, hext, hraw]
  · intro hraw
    rcases hext : f.ext <;> simp [read_file, hext, hraw]

/-- Witness for C5: the invariants instantiated on the concrete readable file
`fileA`, its first row, its first column, and its first column name, plus the
non-emptiness of the returned table. -/
theorem read_file_invariants_witness :
    ([Cell.str "AAPL", Cell.num 10, Cell.str "100.0"] : List Cell).any Cell.notna = true ∧
    tableA.rows.any (fun r => Cell.notna (r.getD 0 Cell.na)) = true ∧
    edgeTrimmed "symbol" = true ∧
    tableA.rows ≠ [] ∧ tableA.cols ≠ [] := by
  have h := (read_file_invariants fileA).1 tableA (by decide)
  exact ⟨h.1 _ (by decide), h.2.1 0 (by decide), h.2.2.1 "symbol" (by decide),
    h.2.2.2.1, h.2.2.2.2⟩

theorem dedupAux_length_le :
    ∀ (l seen : List (List Cell)), (dedupAux seen l).length ≤ l.length := by
  intro l
  induction l with
  | nil => intro seen; simp [dedupAux]
  | cons r rs ih =>
    intro seen
    by_cases hm : r ∈ seen
    · simp only [dedupAux, if_pos hm, List.length_cons]
      exact le_trans (ih seen) (Nat.le_succ _)
    · simp only [dedupAux, if_neg hm, List.length_cons]
      exact Nat.succ_le_succ (ih (r :: seen))

theorem dedupAux_length_eq_iff :
    ∀ (l seen : List (List Cell)),
      (dedupAux seen l).length = l.length ↔ (l.Nodup ∧ ∀ r ∈ l, r ∉ seen) := by
  intro l
  induction l with
  | nil => intro seen; simp [dedupAux]
  | cons r rs ih =>
    intro seen
    by_cases hm : r ∈ seen
    · simp only [dedupAux, if_pos hm, List.length_cons]
      constructor
      · intro h
        have := dedupAux_length_le rs seen
        omega
      · rintro ⟨_, h2⟩
        exact absurd hm (h2 r (List.mem_cons_self r rs))
    · simp only [dedupAux, if_neg hm, List.length_cons]
      constructor
      · intro h
        have h' : (dedupAux (r :: seen) rs).length = rs.length := by omega
        obtain ⟨hnd, hnotin⟩ := (ih (r :: seen)).mp h'
        refine ⟨List.nodup_cons.mpr ⟨fun hrin => ?_, hnd⟩, ?_⟩
        · exact (hnotin r hrin) (List.mem_cons_self r seen)
        · intro x hx
          rcases List.mem_cons.mp hx with rfl | hxs
          · exact hm
          · intro hxseen
            exact (hnotin x hxs) (List.mem_cons_of_mem r hxseen)
      · rintro ⟨hnd, hnotin⟩
        have hnd' := List.nodup_cons.mp hnd
        have h' : (dedupAux (r :: seen) rs).length = rs.length := by
          refine (ih (r :: seen)).mpr ⟨hnd'.2, fun x hx hxin => ?_⟩
          rcases List.mem_cons.mp hxin with rfl | hxseen
          · exact hnd'.1 hx
          · exact (hnotin x (List.mem_cons_of_mem r hx)) hxseen
        omega

theorem dedupRows_length_le (l : List (List Cell)) : (dedupRows l).length ≤ l.length :=
  dedupAux_length_le l []

theorem dedupRows_length_eq_iff (l : List (List Cell)) :
    (dedupRows l).length = l.length ↔ l.Nodup := by
  rw [dedupRows, dedupAux_length_eq_iff l []]
  simp

theorem concatTables_rows_length (ts : List Table) :
    (concatTables ts).rows.length = (ts.map (fun t => t.rows.length)).sum := by
  simp [concatTables, List.length_flatten, List.map_map, Function.comp_def]

theorem sortPhase_rows_length (parse : Cell → Option Nat) (t : Table) :
    (sortPhase parse t).rows.length = t.rows.length := by
  unfold sortPhase
  rw [sortLoop_eq_firstHit]
  rcases hh : firstHit parse t t.cols.enum with _ | ⟨j, parsed⟩
  · rfl
  · obtain ⟨name, _, _, hparse, _⟩ :=
      firstHit_enumFrom_spec parse t t.cols 0 j parsed hh
    have hlen : parsed.length = t.rows.length := by
      rw [parseColumn_length parse _ _ hparse]
      simp [colCells]
    show (List.insertionSort (rowLe j) (List.zipWith _ t.rows parsed)).length = t.rows.length
    rw [(List.perm_insertionSort (rowLe j) _).length_eq, List.length_zipWith, hlen,
      Nat.min_self]

/-- C6: the compiled table never has more rows than the successfully-read
files supply in total, and it has exactly that many rows precisely when the
concatenated union of those files contains no duplicate row. -/
theorem merge_row_count (parse : Cell → Option Nat) (files : List SrcFile)
    (account fname : String) (table : Table) (dupes : Nat)
    (h : (compile_files parse files account).2 = some (fname, table, dupes)) :
    table.rows.length ≤ ((files.filterMap read_file).map (fun t => t.rows.length)).sum ∧
    (table.rows.length = ((files.filterMap read_file).map (fun t => t.rows.length)).sum ↔
      (concatTables (files.filterMap read_file)).rows.Nodup) := by
  rcases hfr : files.filterMap read_file with _ | ⟨f0, fr⟩
  · rw [show (compile_files parse files account).2 = none by simp [compile_files, hfr]] at h
    exact absurd h (by simp)
  · have htab : table =
        sortPhase parse
          { cols := (concatTables (f0 :: fr)).cols,
            rows := dedupRows (concatTables (f0 :: fr)).rows } := by
      simp only [compile_files, hfr, List.isEmpty_cons, Bool.false_eq_true, ite_false,
        Option.some.injEq, Prod.mk.injEq] at h
      exact h.2.1.symm
    have hlen : table.rows.length = (dedupRows (concatTables (f0 :: fr)).rows).length := by
      rw [htab, sortPhase_rows_length]
    have hsum : (concatTables (f0 :: fr)).rows.length =
        ((f0 :: fr).map (fun t => t.rows.length)).sum := concatTables_rows_length _
    constructor
    · rw [hlen, ← hsum]
      exact dedupRows_length_le _
    · rw [hlen, ← hsum]
      exact dedupRows_length_eq_iff _

/-- Witness for C6: on the two concrete example files the compiled table has
2 rows, below the 4 supplied rows (duplicates exist across the union). -/
theorem merge_row_count_witness :
    ({ cols := ["symbol", "qty", "price"],
       rows := [[Cell.str "AAPL", Cell.num 10, Cell.str "100.0"],
                [Cell.str "MSFT", Cell.num 5, Cell.str "50.0"]] } : Table).rows.length ≤
      (([fileA, fileB].filterMap read_file).map (fun t => t.rows.length)).sum :=
  (merge_row_count parseNone [fileA, fileB] "acct" "acct_compiled.csv"
    { cols := ["symbol", "qty", "price"],
      rows := [[Cell.str "AAPL", Cell.num 10, Cell.str "100.0"],
               [Cell.str "MSFT", Cell.num 5, Cell.str "50.0"]] } 2 (by decide)).1

